import Mathlib

/-
Verification development for the multi-module Flutter tools extension.

The file embeds the logic-bearing parts of the repository:
  * `src/repoDiscovery.ts` : bounded-depth discovery of package roots
    (`shouldSkipEntry`, `discoverFlutterProjects`);
  * the extension main module : the pubspec dependency localizer
    (`isActivePathLine`, `convertDependenciesToLocal`), the shell adapter
    (`applyFvmProxy`, `runShellCommand`) and the sequential batch runner
    (`runProjectOperation`).

Filesystem directories are modelled as finite trees; external processes,
thrown action errors and the cancellation token are modelled as explicit
oracles, so every embedded operation is a total function.
-/

namespace MMF

/- ===================== Project discovery ===================== -/

/-- Options record passed to `discoverFlutterProjects` : maximum recursion
depth below each root and the folder names that are never descended into. -/
structure DiscoveryOptions where
  maxDepth : Nat
  excludeFolders : List String
deriving DecidableEq

/-- A directory of the scanned filesystem.  `pubspec` says whether the
stat of `<dir>/pubspec.yaml` succeeds, `readable` whether `readdir`
succeeds, and `entries` is the directory listing: for each entry its
name, whether it is itself a directory, and the node the walker would
reach by descending into it. -/
inductive FSNode : Type where
  | dir (pubspec : Bool) (readable : Bool) (entries : List (String × Bool × FSNode)) : FSNode

/-- The `hasPubspec` check of repoDiscovery.ts : a directory is a package
root exactly when the manifest stat succeeds. -/
def hasPubspec : FSNode → Bool
  | .dir pubspec _ _ => pubspec

/-- `shouldSkipEntry` of repoDiscovery.ts, on the observable parts of a
`Dirent` : skip non-directories, skip `.` and `..`, skip excluded names. -/
def shouldSkipEntry (name : String) (isDirectory : Bool) (excludeFolders : List String) : Bool :=
  if !isDirectory then true
  else if name = "." || name = ".." then true
  else if excludeFolders.contains name then true
  else false

/-- Result of one discovery walk: the directories popped from the explicit
stack (and hence checked for the manifest), and the directories recorded
as projects.  Paths are lists of name segments relative to the root. -/
structure WalkResult where
  visited : List (List String)
  projects : List (List String)
deriving DecidableEq

mutual

/-- The loop body of `discoverFlutterProjects` for one stack item, in
source order: if the directory has the manifest it is recorded and its
children are not enqueued; otherwise if `depth >= maxDepth` descent
stops; otherwise if the listing fails the directory is silently skipped;
otherwise each non-skipped child is walked at `depth + 1`.  The explicit
stack of the source only changes the visiting order, which the spec
declares non-contractual; visited/recorded sets are the same. -/
def walk (options : DiscoveryOptions) : FSNode → Nat → WalkResult
  | .dir pubspec readable entries, depth =>
    if pubspec then ⟨[[]], [[]]⟩
    else if options.maxDepth ≤ depth then ⟨[[]], []⟩
    else if readable = false then ⟨[[]], []⟩
    else
      ⟨[] :: (walkEntries options entries (depth + 1)).visited,
       (walkEntries options entries (depth + 1)).projects⟩

/-- The `for (const entry of entries)` loop: entries surviving
`shouldSkipEntry` are pushed (here: walked) with `depth + 1`, already
incremented by the caller; their results are prefixed with the entry
name, mirroring `path.join(dir, entry.name)`. -/
def walkEntries (options : DiscoveryOptions) :
    List (String × Bool × FSNode) → Nat → WalkResult
  | [], _ => ⟨[], []⟩
  | (name, isDirectory, node) :: rest, depth =>
    if shouldSkipEntry name isDirectory options.excludeFolders then
      walkEntries options rest depth
    else
      ⟨(walk options node depth).visited.map (name :: ·)
         ++ (walkEntries options rest depth).visited,
       (walk options node depth).projects.map (name :: ·)
         ++ (walkEntries options rest depth).projects⟩

end

/-- `Array.from(new Set(...))` : deduplication keeping first insertions. -/
def insertDedup (l : List (List String)) : List (List String) :=
  l.foldl (fun acc x => if x ∈ acc then acc else acc ++ [x]) []

/-- `discoverFlutterProjects root options` : walk the tree under `root`
starting at depth 0 and return the recorded project paths, deduplicated
through a set.  Returned paths are absolute: the root path segment
followed by the relative segments. -/
def discoverFlutterProjects (root : String) (rootNode : FSNode)
    (options : DiscoveryOptions) : List (List String) :=
  insertDedup ((walk options rootNode 0).projects.map (fun p => root :: p))

/-- First entry of a directory listing with the given name, as `readdir`
exposes it (entry name, isDirectory, node). -/
def findEntry (name : String) : List (String × Bool × FSNode) → Option (Bool × FSNode)
  | [] => none
  | (n, isDirectory, node) :: rest =>
    if n = name then some (isDirectory, node) else findEntry name rest

/-- Resolve a relative segment path to the node it denotes, descending
only through directory entries. -/
def lookup : FSNode → List String → Option FSNode
  | node, [] => some node
  | .dir _ _ entries, name :: rest =>
    match findEntry name entries with
    | some (true, child) => lookup child rest
    | _ => none

/-- Whether the directory at a relative path contains the manifest. -/
def pubspecAt (node : FSNode) (p : List String) : Bool :=
  match lookup node p with
  | some found => hasPubspec found
  | none => false

/-- Names of the entries of a directory listing. -/
def entryNames (entries : List (String × Bool × FSNode)) : List String :=
  entries.map (fun e => e.1)

/-- No two entries of one listing share a name (true of any real
`readdir` result). -/
def distinctNames : List (String × Bool × FSNode) → Bool
  | [] => true
  | (n, _, _) :: rest => !((entryNames rest).contains n) && distinctNames rest

mutual

/-- Well-formed tree: every directory listing has pairwise distinct
entry names, recursively — the shape `readdir` guarantees. -/
def wfNode : FSNode → Bool
  | .dir _ _ entries => distinctNames entries && wfEntries entries

/-- All nodes hanging off a listing are well-formed. -/
def wfEntries : List (String × Bool × FSNode) → Bool
  | [] => true
  | (_, _, node) :: rest => wfNode node && wfEntries rest

end

/- ===================== Dependency localizer ===================== -/

/-- The whitespace characters relevant to `String.prototype.trim` for
the ASCII manifests at hand (JavaScript trims a wider Unicode set). -/
def jsWhitespace (c : Char) : Bool :=
  c = ' ' || c = '\t' || c = '\n' || c = '\r'

/-- JavaScript `String.prototype.trim` over the character list. -/
def jsTrim (s : String) : String :=
  String.mk (((s.toList.dropWhile jsWhitespace).reverse.dropWhile jsWhitespace).reverse)

/-- JavaScript `String.prototype.startsWith`. -/
def jsStartsWith (s pre : String) : Bool :=
  pre.toList.isPrefixOf s.toList

/-- JavaScript string falsiness test `!line` : true exactly on `""`. -/
def jsIsEmpty (s : String) : Bool :=
  s.toList.isEmpty

/-- `updatedLines.join("\n")`. -/
def joinLines : List String → String
  | [] => ""
  | [l] => l
  | l :: rest => l ++ "\n" ++ joinLines rest

/-- `contents.split(/\r?\n/)` : cut at every `\n`, consuming one `\r`
immediately before it as part of the separator; a lone `\r` stays. -/
def splitLinesAux : List Char → List Char → List String
  | [], acc => [String.mk acc.reverse]
  | '\r' :: '\n' :: rest, acc => String.mk acc.reverse :: splitLinesAux rest []
  | '\n' :: rest, acc => String.mk acc.reverse :: splitLinesAux rest []
  | c :: rest, acc => splitLinesAux rest (c :: acc)

/-- Split file contents into lines the way the localizer does. -/
def splitLines (s : String) : List String :=
  splitLinesAux s.toList []

/-- Index of the first occurrence of `pat` in a character list,
mirroring JavaScript `String.indexOf` (`none` for not found). -/
def listIndexOf (pat : List Char) : List Char → Option Nat
  | [] => if pat.isPrefixOf ([] : List Char) then some 0 else none
  | c :: rest =>
    if pat.isPrefixOf (c :: rest) then some 0
    else (listIndexOf pat rest).map (· + 1)

/-- `isActivePathLine` : the line contains `path` somewhere, and no `#`
occurs before that occurrence (the occurrence is not commented out). -/
def isActivePathLine (line : String) : Bool :=
  match listIndexOf "path".toList line.toList with
  | none => false
  | some index => !((line.toList.take index).contains '#')

/-- Inner `for (const dep of projectNames)` loop of the localizer for one
candidate line: find the first name with `trimmed.startsWith(dep + ":")`;
if the next original line is an active path line, stop without replacing
(`none`); otherwise emit the two replacement lines. -/
def matchDep (line nextLine : String) : List String → Option (List String)
  | [] => none
  | dep :: deps =>
    if !(jsStartsWith (jsTrim line) (dep ++ ":")) then matchDep line nextLine deps
    else if isActivePathLine nextLine then none
    else some ["  " ++ dep ++ ":", "    path: ../" ++ dep]

/-- The forward pass of `convertDependenciesToLocal` over the split
lines: blank lines and full-line comments are copied; a replaced line
contributes its two replacement lines and sets the updated flag; any
other line is copied.  The second component is the `updated` flag. -/
def convertDependencyLines (projectNames : List String) : List String → List String × Bool
  | [] => ([], false)
  | line :: rest =>
    if jsIsEmpty line || jsStartsWith (jsTrim line) "#" then
      (line :: (convertDependencyLines projectNames rest).1,
       (convertDependencyLines projectNames rest).2)
    else
      match matchDep line (rest.headD "") projectNames with
      | some replacement =>
        (replacement ++ (convertDependencyLines projectNames rest).1, true)
      | none =>
        (line :: (convertDependencyLines projectNames rest).1,
         (convertDependencyLines projectNames rest).2)

/-- `convertDependenciesToLocal` : the manifest file is modelled as
`Option String` (`none` = absent or unreadable).  The result is the file
content after the call together with the returned `updated` flag: on
read failure the function returns `false` and touches nothing; the
rewritten lines are joined with `"\n"` and written back only when at
least one replacement occurred. -/
def convertDependenciesToLocal (file : Option String) (projectNames : List String) :
    Option String × Bool :=
  match file with
  | none => (none, false)
  | some contents =>
    if (convertDependencyLines projectNames (splitLines contents)).2 then
      (some (joinLines (convertDependencyLines projectNames (splitLines contents)).1), true)
    else (some contents, false)

/-- Condition used by claim C5, phrased from the spec: every candidate
line matched by some sibling name is immediately followed by an active
path line, so the localizer has nothing to do. -/
def allMatchesHaveActivePath (projectNames : List String) : List String → Bool
  | [] => true
  | line :: rest =>
    (if jsIsEmpty line || jsStartsWith (jsTrim line) "#" then true
     else match projectNames.find? (fun dep => jsStartsWith (jsTrim line) (dep ++ ":")) with
          | none => true
          | some _ => isActivePathLine (rest.headD ""))
    && allMatchesHaveActivePath projectNames rest

/- ===================== Shell adapter ===================== -/

/-- Uniform result record of `runShellCommand`. -/
structure CommandResult where
  ok : Bool
  stdout : String
  stderr : String
deriving DecidableEq

/-- What awaiting `execAsync` can produce: a fulfilled promise whose
`stdout` / `stderr` fields may be absent, or a rejection carrying an
error object with optional `stdout`, `stderr` and `message` fields
(non-zero exit or failure to launch). -/
inductive ExecOutcome : Type where
  | success (stdout stderr : Option String) : ExecOutcome
  | failure (stdout stderr message : Option String) : ExecOutcome
deriving DecidableEq

/-- Whether the process exited non-zero or failed to launch. -/
def ExecOutcome.isFailure : ExecOutcome → Bool
  | .success _ _ => false
  | .failure _ _ _ => true

/-- `applyFvmProxy` : when the toggle is on, commands whose trimmed text
is `flutter`/`dart` or starts with `flutter `/`dart ` get the `fvm `
wrapper prefixed to the original (untrimmed) command. -/
def applyFvmProxy (useFvm : Bool) (command : String) : String :=
  if !useFvm then command
  else if jsTrim command = "flutter" || jsStartsWith (jsTrim command) "flutter " then
    "fvm " ++ command
  else if jsTrim command = "dart" || jsStartsWith (jsTrim command) "dart " then
    "fvm " ++ command
  else command

/-- `runShellCommand` : apply the fvm proxy, run the command (the process
world is the oracle `execBehavior`, taking the proxied command and the
working directory), and normalize: on success `ok` is true and missing
outputs default to `""`; on rejection `ok` is false, outputs default to
`""`, and `stderr` falls back to the error message and then to
`"Unknown error"`. -/
def runShellCommand (execBehavior : String → Option String → ExecOutcome)
    (useFvm : Bool) (command : String) (cwd : Option String) : CommandResult :=
  match execBehavior (applyFvmProxy useFvm command) cwd with
  | .success out err => ⟨true, out.getD "", err.getD ""⟩
  | .failure out err msg => ⟨false, out.getD "", err.getD (msg.getD "Unknown error")⟩

/- ===================== Batch runner ===================== -/

/-- `ProjectInfo` : name is the final path segment of the project path. -/
structure ProjectInfo where
  name : String
  path : String
deriving DecidableEq

/-- What `await action(project)` does for one item: return, or throw an
error rendered as the given message text. -/
inductive ActionOutcome : Type where
  | ok : ActionOutcome
  | err (message : String) : ActionOutcome
deriving DecidableEq

/-- One line appended to the output channel by the runner loop itself:
the per-item header `\n=== name » op ===`, or the `Error: ...` line
written by the per-item catch. -/
inductive TraceLine : Type where
  | header (projectName operationName : String) : TraceLine
  | failure (message : String) : TraceLine
deriving DecidableEq

/-- Whether a trace line is a failure line. -/
def TraceLine.isFailureLine : TraceLine → Bool
  | .header _ _ => false
  | .failure _ => true

/-- The rendered text of a trace line as `appendLine` receives it. -/
def TraceLine.render : TraceLine → String
  | .header projectName operationName => "\n=== " ++ projectName ++ " » " ++ operationName ++ " ==="
  | .failure message => "Error: " ++ message

/-- The `for (const project of projectList)` loop of
`runProjectOperation`, with the item counter `i` keying the oracles: the
cancellation token is read immediately before each item; a cancelled
read stops the loop; otherwise the header is appended, the action runs
(outcome given by the oracle), and a thrown error is caught and appended
as a failure line.  Returns the appended trace and the indices of the
items whose action was invoked. -/
def runLoop (operationName : String) (outcome : Nat → ActionOutcome)
    (cancelled : Nat → Bool) : List ProjectInfo → Nat → List TraceLine × List Nat
  | [], _ => ([], [])
  | project :: rest, i =>
    if cancelled i then ([], [])
    else
      match outcome i with
      | .ok =>
        (TraceLine.header project.name operationName
           :: (runLoop operationName outcome cancelled rest (i + 1)).1,
         i :: (runLoop operationName outcome cancelled rest (i + 1)).2)
      | .err msg =>
        (TraceLine.header project.name operationName
           :: TraceLine.failure msg
           :: (runLoop operationName outcome cancelled rest (i + 1)).1,
         i :: (runLoop operationName outcome cancelled rest (i + 1)).2)

/-- Observable result of `runProjectOperation` : the empty-list warning
path, or the loop's trace and invoked items. -/
inductive RunReport : Type where
  | noModules : RunReport
  | ran (trace : List TraceLine) (invoked : List Nat) : RunReport
deriving DecidableEq

/-- `runProjectOperation` on an explicit project list: warn and stop when
the list is empty, otherwise clear the output and run the loop from the
first item. -/
def runProjectOperation (operationName : String) (outcome : Nat → ActionOutcome)
    (cancelled : Nat → Bool) (projects : List ProjectInfo) : RunReport :=
  if projects.length = 0 then .noModules
  else .ran (runLoop operationName outcome cancelled projects 0).1
    (runLoop operationName outcome cancelled projects 0).2

/-- The trace the loop produces over a list of items none of whose
iterations sees a cancelled token, starting at item counter `i`. -/
def traceFrom (operationName : String) (outcome : Nat → ActionOutcome) :
    List ProjectInfo → Nat → List TraceLine
  | [], _ => []
  | project :: rest, i =>
    TraceLine.header project.name operationName ::
      (match outcome i with
       | .ok => traceFrom operationName outcome rest (i + 1)
       | .err msg => TraceLine.failure msg :: traceFrom operationName outcome rest (i + 1))

/- ===================== Discovery lemmas ===================== -/

theorem mem_foldl_insert (l : List (List String)) :
    ∀ acc x, (x ∈ l.foldl (fun acc y => if y ∈ acc then acc else acc ++ [y]) acc) ↔
      (x ∈ acc ∨ x ∈ l) := by
  induction l with
  | nil =>
    intro acc x
    simp
  | cons h t ih =>
    intro acc x
    simp only [List.foldl_cons]
    rw [ih]
    by_cases hx : h ∈ acc
    · rw [if_pos hx]
      constructor
      · rintro (h1 | h1)
        · exact Or.inl h1
        · exact Or.inr (List.mem_cons_of_mem _ h1)
      · rintro (h1 | h1)
        · exact Or.inl h1
        · rcases List.mem_cons.mp h1 with rfl | h2
          · exact Or.inl hx
          · exact Or.inr h2
    · rw [if_neg hx]
      simp only [List.mem_append, List.mem_cons, List.mem_singleton]
      tauto

theorem mem_insertDedup (l : List (List String)) (x : List String) :
    x ∈ insertDedup l ↔ x ∈ l := by
  rw [insertDedup, mem_foldl_insert]
  simp

theorem shouldSkipEntry_eq_false (name : String) (isDirectory : Bool)
    (excludeFolders : List String)
    (h : shouldSkipEntry name isDirectory excludeFolders = false) :
    isDirectory = true ∧ name ≠ "." ∧ name ≠ ".." ∧
      excludeFolders.contains name = false := by
  cases isDirectory with
  | false => simp [shouldSkipEntry] at h
  | true =>
    simp only [shouldSkipEntry, Bool.not_true, Bool.false_eq_true, if_false] at h
    by_cases h1 : name = "." ∨ name = ".."
    · exfalso
      rcases h1 with h1 | h1 <;> simp [h1] at h
    · push_neg at h1
      rw [if_neg (by simp [h1.1, h1.2])] at h
      by_cases h2 : excludeFolders.contains name = true
      · rw [if_pos h2] at h
        cases h
      · exact ⟨rfl, h1.1, h1.2, by simpa using h2⟩

theorem mem_walkEntries_visited (options : DiscoveryOptions)
    (entries : List (String × Bool × FSNode)) (d : Nat) (x : List String) :
    x ∈ (walkEntries options entries d).visited ↔
      ∃ name isDirectory node p, (name, isDirectory, node) ∈ entries ∧
        shouldSkipEntry name isDirectory options.excludeFolders = false ∧
        x = name :: p ∧ p ∈ (walk options node d).visited := by
  induction entries with
  | nil =>
    simp [walkEntries]
  | cons e rest ih =>
    obtain ⟨name, isDirectory, node⟩ := e
    rw [walkEntries]
    by_cases hskip : shouldSkipEntry name isDirectory options.excludeFolders = true
    · rw [if_pos hskip, ih]
      constructor
      · rintro ⟨n, i, nd, p, hmem, hsk, hx, hp⟩
        exact ⟨n, i, nd, p, List.mem_cons_of_mem _ hmem, hsk, hx, hp⟩
      · rintro ⟨n, i, nd, p, hmem, hsk, hx, hp⟩
        rcases List.mem_cons.mp hmem with heq | hmem'
        · cases heq
          rw [hskip] at hsk
          cases hsk
        · exact ⟨n, i, nd, p, hmem', hsk, hx, hp⟩
    · rw [if_neg hskip]
      simp only [List.mem_append, List.mem_map, ih]
      constructor
      · rintro (⟨p, hp, rfl⟩ | ⟨n, i, nd, p, hmem, hsk, hx, hp⟩)
        · exact ⟨name, isDirectory, node, p, List.mem_cons_self _ _,
            Bool.eq_false_iff.mpr hskip, rfl, hp⟩
        · exact ⟨n, i, nd, p, List.mem_cons_of_mem _ hmem, hsk, hx, hp⟩
      · rintro ⟨n, i, nd, p, hmem, hsk, hx, hp⟩
        rcases List.mem_cons.mp hmem with heq | hmem'
        · cases heq
          exact Or.inl ⟨p, hp, hx.symm⟩
        · exact Or.inr ⟨n, i, nd, p, hmem', hsk, hx, hp⟩

theorem mem_walkEntries_projects (options : DiscoveryOptions)
    (entries : List (String × Bool × FSNode)) (d : Nat) (x : List String) :
    x ∈ (walkEntries options entries d).projects ↔
      ∃ name isDirectory node p, (name, isDirectory, node) ∈ entries ∧
        shouldSkipEntry name isDirectory options.excludeFolders = false ∧
        x = name :: p ∧ p ∈ (walk options node d).projects := by
  induction entries with
  | nil =>
    simp [walkEntries]
  | cons e rest ih =>
    obtain ⟨name, isDirectory, node⟩ := e
    rw [walkEntries]
    by_cases hskip : shouldSkipEntry name isDirectory options.excludeFolders = true
    · rw [if_pos hskip, ih]
      constructor
      · rintro ⟨n, i, nd, p, hmem, hsk, hx, hp⟩
        exact ⟨n, i, nd, p, List.mem_cons_of_mem _ hmem, hsk, hx, hp⟩
      · rintro ⟨n, i, nd, p, hmem, hsk, hx, hp⟩
        rcases List.mem_cons.mp hmem with heq | hmem'
        · cases heq
          rw [hskip] at hsk
          cases hsk
        · exact ⟨n, i, nd, p, hmem', hsk, hx, hp⟩
    · rw [if_neg hskip]
      simp only [List.mem_append, List.mem_map, ih]
      constructor
      · rintro (⟨p, hp, rfl⟩ | ⟨n, i, nd, p, hmem, hsk, hx, hp⟩)
        · exact ⟨name, isDirectory, node, p, List.mem_cons_self _ _,
            Bool.eq_false_iff.mpr hskip, rfl, hp⟩
        · exact ⟨n, i, nd, p, List.mem_cons_of_mem _ hmem, hsk, hx, hp⟩
      · rintro ⟨n, i, nd, p, hmem, hsk, hx, hp⟩
        rcases List.mem_cons.mp hmem with heq | hmem'
        · cases heq
          exact Or.inl ⟨p, hp, hx.symm⟩
        · exact Or.inr ⟨n, i, nd, p, hmem', hsk, hx, hp⟩

theorem sizeOf_child_lt (name : String) (isDirectory : Bool) (child : FSNode)
    (entries : List (String × Bool × FSNode))
    (h : (name, isDirectory, child) ∈ entries)
    (pb rd : Bool) : sizeOf child < sizeOf (FSNode.dir pb rd entries) := by
  have h1 := List.sizeOf_lt_of_mem h
  simp at h1 ⊢
  omega

theorem walk_visited_length (options : DiscoveryOptions) (node : FSNode) (depth : Nat) :
    ∀ p ∈ (walk options node depth).visited,
      depth + p.length ≤ max options.maxDepth depth := by
  obtain ⟨pubspec, readable, entries⟩ := node
  intro p hp
  rw [walk] at hp
  by_cases h1 : pubspec = true
  · rw [if_pos h1] at hp
    simp at hp
    subst hp
    simp
  · rw [if_neg h1] at hp
    by_cases h2 : options.maxDepth ≤ depth
    · rw [if_pos h2] at hp
      simp at hp
      subst hp
      simp
    · rw [if_neg h2] at hp
      by_cases h3 : readable = false
      · rw [if_pos h3] at hp
        simp at hp
        subst hp
        simp
      · rw [if_neg h3] at hp
        simp only [List.mem_cons] at hp
        rcases hp with rfl | hp
        · simp
        · rw [mem_walkEntries_visited] at hp
          obtain ⟨name, isDirectory, child, q, hmem, hsk, rfl, hq⟩ := hp
          have := walk_visited_length options child (depth + 1) q hq
          simp only [List.length_cons]
          omega
termination_by sizeOf node
decreasing_by
  exact sizeOf_child_lt name isDirectory child entries hmem pubspec readable

theorem walk_projects_subset (options : DiscoveryOptions) (node : FSNode) (depth : Nat) :
    ∀ p ∈ (walk options node depth).projects, p ∈ (walk options node depth).visited := by
  obtain ⟨pubspec, readable, entries⟩ := node
  intro p hp
  rw [walk] at hp ⊢
  by_cases h1 : pubspec = true
  · rw [if_pos h1] at hp ⊢
    exact hp
  · rw [if_neg h1] at hp ⊢
    by_cases h2 : options.maxDepth ≤ depth
    · rw [if_pos h2] at hp
      cases hp
    · rw [if_neg h2] at hp ⊢
      by_cases h3 : readable = false
      · rw [if_pos h3] at hp
        cases hp
      · rw [if_neg h3] at hp ⊢
        rw [mem_walkEntries_projects] at hp
        obtain ⟨name, isDirectory, child, q, hmem, hsk, rfl, hq⟩ := hp
        have := walk_projects_subset options child (depth + 1) q hq
        apply List.mem_cons_of_mem
        rw [mem_walkEntries_visited]
        exact ⟨name, isDirectory, child, q, hmem, hsk, rfl, this⟩
termination_by sizeOf node
decreasing_by
  exact sizeOf_child_lt name isDirectory child entries hmem pubspec readable

theorem walk_visited_segments (options : DiscoveryOptions) (node : FSNode) (depth : Nat) :
    ∀ p ∈ (walk options node depth).visited, ∀ s ∈ p,
      options.excludeFolders.contains s = false ∧ s ≠ "." ∧ s ≠ ".." := by
  obtain ⟨pubspec, readable, entries⟩ := node
  intro p hp s hs
  rw [walk] at hp
  by_cases h1 : pubspec = true
  · rw [if_pos h1] at hp
    simp at hp
    subst hp
    cases hs
  · rw [if_neg h1] at hp
    by_cases h2 : options.maxDepth ≤ depth
    · rw [if_pos h2] at hp
      simp at hp
      subst hp
      cases hs
    · rw [if_neg h2] at hp
      by_cases h3 : readable = false
      · rw [if_pos h3] at hp
        simp at hp
        subst hp
        cases hs
      · rw [if_neg h3] at hp
        simp only [List.mem_cons] at hp
        rcases hp with rfl | hp
        · cases hs
        · rw [mem_walkEntries_visited] at hp
          obtain ⟨name, isDirectory, child, q, hmem, hsk, rfl, hq⟩ := hp
          obtain ⟨_, hdot, hdotdot, hex⟩ :=
            shouldSkipEntry_eq_false name isDirectory options.excludeFolders hsk
          rcases List.mem_cons.mp hs with rfl | hs'
          · exact ⟨hex, hdot, hdotdot⟩
          · exact walk_visited_segments options child (depth + 1) q hq s hs'
termination_by sizeOf node
decreasing_by
  exact sizeOf_child_lt name isDirectory child entries hmem pubspec readable

theorem walk_visited_root (options : DiscoveryOptions) (node : FSNode) (depth : Nat) :
    [] ∈ (walk options node depth).visited := by
  obtain ⟨pubspec, readable, entries⟩ := node
  rw [walk]
  by_cases h1 : pubspec = true
  · rw [if_pos h1]
    simp
  · rw [if_neg h1]
    by_cases h2 : options.maxDepth ≤ depth
    · rw [if_pos h2]
      simp
    · rw [if_neg h2]
      by_cases h3 : readable = false
      · rw [if_pos h3]
        simp
      · rw [if_neg h3]
        simp

theorem findEntry_of_distinct (name : String) (isDirectory : Bool) (child : FSNode)
    (entries : List (String × Bool × FSNode))
    (hd : distinctNames entries = true)
    (hmem : (name, isDirectory, child) ∈ entries) :
    findEntry name entries = some (isDirectory, child) := by
  induction entries with
  | nil => cases hmem
  | cons e rest ih =>
    obtain ⟨n, d, c⟩ := e
    rw [distinctNames, Bool.and_eq_true] at hd
    obtain ⟨hd1, hd2⟩ := hd
    rcases List.mem_cons.mp hmem with heq | hmem'
    · cases heq
      rw [findEntry, if_pos rfl]
    · rw [findEntry]
      by_cases hn : n = name
      · subst hn
        exfalso
        have hmm : n ∈ entryNames rest := by
          rw [entryNames]
          exact List.mem_map.mpr ⟨(n, isDirectory, child), hmem', rfl⟩
        simp at hd1
        exact hd1 hmm
      · rw [if_neg hn]
        exact ih hd2 hmem'

theorem wfEntries_mem (entries : List (String × Bool × FSNode))
    (name : String) (isDirectory : Bool) (child : FSNode)
    (hw : wfEntries entries = true)
    (hmem : (name, isDirectory, child) ∈ entries) : wfNode child = true := by
  induction entries with
  | nil => cases hmem
  | cons e rest ih =>
    obtain ⟨n, d, c⟩ := e
    rw [wfEntries, Bool.and_eq_true] at hw
    rcases List.mem_cons.mp hmem with heq | hmem'
    · cases heq
      exact hw.1
    · exact ih hw.2 hmem'

theorem walk_pubspec_leaf_aux (options : DiscoveryOptions) (node : FSNode) (depth : Nat) :
    ∀ p, wfNode node = true → p ∈ (walk options node depth).visited →
      pubspecAt node p = true →
      p ∈ (walk options node depth).projects ∧
        ∀ q r, r ≠ [] → q = p ++ r → q ∉ (walk options node depth).visited := by
  obtain ⟨pubspec, readable, entries⟩ := node
  intro p hwf hvis hpub
  by_cases h1 : pubspec = true
  · rw [walk, if_pos h1] at hvis ⊢
    simp at hvis
    subst hvis
    refine ⟨by simp, ?_⟩
    rintro q r hr rfl
    simp only [List.nil_append, List.mem_singleton]
    exact hr
  · have hpne : p ≠ [] := by
      intro hp0
      subst hp0
      simp only [pubspecAt, lookup, hasPubspec] at hpub
      exact h1 hpub
    rw [walk, if_neg h1] at hvis ⊢
    by_cases h2 : options.maxDepth ≤ depth
    · rw [if_pos h2] at hvis
      simp at hvis
      exact absurd hvis hpne
    · rw [if_neg h2] at hvis ⊢
      by_cases h3 : readable = false
      · rw [if_pos h3] at hvis
        simp at hvis
        exact absurd hvis hpne
      · rw [if_neg h3] at hvis ⊢
        have hvis' : p ∈ (walkEntries options entries (depth + 1)).visited := by
          rcases List.mem_cons.mp hvis with h | h
          · exact absurd h hpne
          · exact h
        rw [mem_walkEntries_visited] at hvis'
        obtain ⟨name, isDirectory, child, p', hmem, hsk, rfl, hp'⟩ := hvis'
        rw [wfNode, Bool.and_eq_true] at hwf
        obtain ⟨hdn, hwe⟩ := hwf
        have hdir : isDirectory = true :=
          (shouldSkipEntry_eq_false name isDirectory options.excludeFolders hsk).1
        subst hdir
        have hfind := findEntry_of_distinct name true child entries hdn hmem
        have hpub' : pubspecAt child p' = true := by
          simp only [pubspecAt, lookup, hfind] at hpub
          simp only [pubspecAt]
          exact hpub
        have hwfc := wfEntries_mem entries name true child hwe hmem
        have IH := walk_pubspec_leaf_aux options child (depth + 1) p' hwfc hp' hpub'
        constructor
        · rw [mem_walkEntries_projects]
          exact ⟨name, true, child, p', hmem, hsk, rfl, IH.1⟩
        · rintro q r hr rfl
          intro hq
          have hq' : (name :: p') ++ r ∈ (walkEntries options entries (depth + 1)).visited := by
            rcases List.mem_cons.mp hq with h | h
            · simp at h
            · exact h
          rw [mem_walkEntries_visited] at hq'
          obtain ⟨name₂, isDirectory₂, child₂, q', hmem₂, hsk₂, heq, hq''⟩ := hq'
          have hname : name₂ = name := by
            simpa using congrArg (fun l => l.headD "") heq.symm
          subst hname
          have hq'eq : q' = p' ++ r := by
            simpa using congrArg List.tail heq.symm
          subst hq'eq
          have hdir₂ : isDirectory₂ = true :=
            (shouldSkipEntry_eq_false name₂ isDirectory₂ options.excludeFolders hsk₂).1
          subst hdir₂
          have hfind₂ := findEntry_of_distinct name₂ true child₂ entries hdn hmem₂
          rw [hfind] at hfind₂
          have hchild : child₂ = child := by
            cases hfind₂
            rfl
          subst hchild
          exact IH.2 (p' ++ r) r hr rfl hq''
termination_by sizeOf node
decreasing_by
  exact sizeOf_child_lt name true child entries hmem pubspec readable

/- ===================== Discovery claims ===================== -/

/-- Claim C2: for every directory tree, once discovery finds that a
directory contains the manifest file, that directory is recorded as a
project and none of its subdirectories are ever visited or reported,
even if those subdirectories themselves contain the manifest.  Stated
over well-formed trees (distinct entry names per listing, as `readdir`
guarantees): if a visited path `p` has the manifest, `p` is recorded,
and no strict extension `q = p ++ r` is visited or reported. -/
theorem discovery_package_root_is_leaf (options : DiscoveryOptions) (node : FSNode)
    (p q r : List String) (hwf : wfNode node = true)
    (hvis : p ∈ (walk options node 0).visited)
    (hpub : pubspecAt node p = true)
    (hr : r ≠ []) (hq : q = p ++ r) :
    p ∈ (walk options node 0).projects ∧
      q ∉ (walk options node 0).visited ∧ q ∉ (walk options node 0).projects := by
  have h := walk_pubspec_leaf_aux options node 0 p hwf hvis hpub
  refine ⟨h.1, h.2 q r hr hq, ?_⟩
  intro hproj
  exact h.2 q r hr hq (walk_projects_subset options node 0 q hproj)

/-- Witness for C2 on a concrete tree: a package root `a` whose
subdirectory `b` also contains a manifest; `a` is reported, `a/b` is
neither visited nor reported. -/
theorem discovery_package_root_is_leaf_witness :
    ["a"] ∈ (walk ⟨5, []⟩ (FSNode.dir false true
        [("a", true, FSNode.dir true true [("b", true, FSNode.dir true true [])])]) 0).projects ∧
      ["a", "b"] ∉ (walk ⟨5, []⟩ (FSNode.dir false true
        [("a", true, FSNode.dir true true [("b", true, FSNode.dir true true [])])]) 0).visited ∧
      ["a", "b"] ∉ (walk ⟨5, []⟩ (FSNode.dir false true
        [("a", true, FSNode.dir true true [("b", true, FSNode.dir true true [])])]) 0).projects :=
  discovery_package_root_is_leaf ⟨5, []⟩
    (FSNode.dir false true
      [("a", true, FSNode.dir true true [("b", true, FSNode.dir true true [])])])
    ["a"] ["a", "b"] ["b"] (by decide) (by decide) (by decide) (by decide) rfl

/-- Claim C3: for every root and discovery options with `maxDepth ≥ 0`
(automatic for `Nat`), discovery never visits or reports a directory
more than `maxDepth` levels below the root, and with `maxDepth = 0`
only the root itself is checked. -/
theorem discovery_respects_max_depth (options : DiscoveryOptions) (node : FSNode) :
    (∀ p ∈ (walk options node 0).visited, p.length ≤ options.maxDepth) ∧
    (∀ p ∈ (walk options node 0).projects, p.length ≤ options.maxDepth) ∧
    (options.maxDepth = 0 → (walk options node 0).visited = [[]]) := by
  refine ⟨?_, ?_, ?_⟩
  · intro p hp
    have h := walk_visited_length options node 0 p hp
    simpa using h
  · intro p hp
    have h := walk_visited_length options node 0 p (walk_projects_subset options node 0 p hp)
    simpa using h
  · intro h0
    obtain ⟨pubspec, readable, entries⟩ := node
    rw [walk]
    by_cases h1 : pubspec = true
    · rw [if_pos h1]
    · rw [if_neg h1, if_pos (by omega : options.maxDepth ≤ 0)]

/-- Witness for C3: every visited path of a concrete walk obeys the
depth bound, and with `maxDepth = 0` only the root is checked. -/
theorem discovery_respects_max_depth_witness :
    (["a"] : List String).length ≤ 2 ∧
      (walk ⟨0, ["x"]⟩ (FSNode.dir false true [("a", true, FSNode.dir true true [])]) 0).visited
        = [[]] := by
  constructor
  · exact (discovery_respects_max_depth ⟨2, []⟩
      (FSNode.dir false true [("a", true, FSNode.dir true true [])])).1 ["a"] (by decide)
  · exact (discovery_respects_max_depth ⟨0, ["x"]⟩
      (FSNode.dir false true [("a", true, FSNode.dir true true [])])).2.2 rfl

/-- Claim C4: discovery never descends into a child directory whose
name is in `excludeFolders`, never pushes non-directory entries or
entries named `.` or `..` — so no visited path (and in particular no
reported project path) has an excluded name, `.` or `..` as a segment
below the root — and an entry that is not a directory contributes
nothing to the walk. -/
theorem discovery_skips_excluded_entries (options : DiscoveryOptions) (node : FSNode) :
    (∀ p ∈ (walk options node 0).visited, ∀ s ∈ p,
       s ∉ options.excludeFolders ∧ s ≠ "." ∧ s ≠ "..") ∧
    (∀ p ∈ (walk options node 0).projects, ∀ s ∈ p,
       s ∉ options.excludeFolders ∧ s ≠ "." ∧ s ≠ "..") ∧
    (∀ name childNode rest depth,
       walkEntries options ((name, false, childNode) :: rest) depth =
         walkEntries options rest depth) := by
  have hseg : ∀ p ∈ (walk options node 0).visited, ∀ s ∈ p,
      s ∉ options.excludeFolders ∧ s ≠ "." ∧ s ≠ ".." := by
    intro p hp s hs
    obtain ⟨hc, hdot, hdotdot⟩ := walk_visited_segments options node 0 p hp s hs
    refine ⟨?_, hdot, hdotdot⟩
    intro hmem
    have hT : options.excludeFolders.contains s = true := List.elem_eq_true_of_mem hmem
    exact absurd (hT.symm.trans hc) (by decide)
  refine ⟨hseg, ?_, ?_⟩
  · intro p hp
    exact hseg p (walk_projects_subset options node 0 p hp)
  · intro name childNode rest depth
    rw [walkEntries, if_pos]
    rfl

/-- Witness for C4: a concrete visited project path below a root with
an exclusion list, and a file entry contributing nothing. -/
theorem discovery_skips_excluded_entries_witness :
    ("app" ∉ (["node_modules"] : List String) ∧ "app" ≠ "." ∧ "app" ≠ "..") ∧
      walkEntries ⟨3, ["node_modules"]⟩
          [("f.txt", false, FSNode.dir true true [])] 1 =
        walkEntries ⟨3, ["node_modules"]⟩ [] 1 := by
  constructor
  · exact (discovery_skips_excluded_entries ⟨3, ["node_modules"]⟩
      (FSNode.dir false true [("app", true, FSNode.dir true true [])])).1
      ["app"] (by decide) "app" (by decide)
  · exact (discovery_skips_excluded_entries ⟨3, ["node_modules"]⟩
      (FSNode.dir false true [])).2.2 "f.txt" (FSNode.dir true true []) [] 1

/-- Claim C10 (implicit): the `excludeFolders` filter applies only to
child entries enumerated during the walk, never to the root itself:
even when the root's own name is in `excludeFolders`, the root is still
examined (its stack item carries no entry name to filter), and reported
when it contains the manifest. -/
theorem discovery_root_not_excluded (root : String) (rootNode : FSNode)
    (options : DiscoveryOptions)
    (hex : root ∈ options.excludeFolders)
    (hpub : pubspecAt rootNode [] = true) :
    [root] ∈ discoverFlutterProjects root rootNode options ∧
      [] ∈ (walk options rootNode 0).visited := by
  obtain ⟨pubspec, readable, entries⟩ := rootNode
  simp only [pubspecAt, lookup, hasPubspec] at hpub
  constructor
  · rw [discoverFlutterProjects, mem_insertDedup]
    refine List.mem_map.mpr ⟨[], ?_, rfl⟩
    rw [walk, if_pos hpub]
    simp
  · exact walk_visited_root options (FSNode.dir pubspec readable entries) 0

/-- Witness for C10: a root named `build`, excluded by name, still has
its manifest reported. -/
theorem discovery_root_not_excluded_witness :
    ["build"] ∈ discoverFlutterProjects "build" (FSNode.dir true true []) ⟨2, ["build"]⟩ ∧
      [] ∈ (walk ⟨2, ["build"]⟩ (FSNode.dir true true []) 0).visited :=
  discovery_root_not_excluded "build" (FSNode.dir true true []) ⟨2, ["build"]⟩
    (by decide) (by decide)

/- ===================== Localizer lemmas ===================== -/

theorem matchDep_eq_none (line nextLine : String) (names : List String)
    (h : ∀ dep, names.find? (fun d => jsStartsWith (jsTrim line) (d ++ ":")) = some dep →
           isActivePathLine nextLine = true) :
    matchDep line nextLine names = none := by
  induction names with
  | nil => rfl
  | cons dep deps ih =>
    rw [matchDep]
    by_cases hm : jsStartsWith (jsTrim line) (dep ++ ":") = true
    · have hf : (dep :: deps).find? (fun d => jsStartsWith (jsTrim line) (d ++ ":")) = some dep :=
        List.find?_cons_of_pos _ hm
      rw [if_neg (by simp [hm]), if_pos (h dep hf)]
    · have hf : (dep :: deps).find? (fun d => jsStartsWith (jsTrim line) (d ++ ":")) =
          deps.find? (fun d => jsStartsWith (jsTrim line) (d ++ ":")) :=
        List.find?_cons_of_neg _ (by simpa using hm)
      rw [if_pos (by simp [hm])]
      exact ih (fun dep' h' => h dep' (by rw [hf]; exact h'))

theorem convertDependencyLines_flag_eq_false (names : List String) (lines : List String)
    (h : allMatchesHaveActivePath names lines = true) :
    (convertDependencyLines names lines).2 = false := by
  induction lines with
  | nil => rfl
  | cons line rest ih =>
    rw [allMatchesHaveActivePath, Bool.and_eq_true] at h
    obtain ⟨h1, h2⟩ := h
    rw [convertDependencyLines]
    by_cases hg : (jsIsEmpty line || jsStartsWith (jsTrim line) "#") = true
    · rw [if_pos hg]
      exact ih h2
    · rw [if_neg hg]
      have hnone : matchDep line (rest.headD "") names = none := by
        apply matchDep_eq_none
        intro dep hdep
        rw [if_neg hg] at h1
        rw [hdep] at h1
        simpa using h1
      rw [hnone]
      exact ih h2

theorem convertDependencyLines_all_comments (names : List String) (lines : List String)
    (h : ∀ line ∈ lines, (jsIsEmpty line || jsStartsWith (jsTrim line) "#") = true) :
    convertDependencyLines names lines = (lines, false) := by
  induction lines with
  | nil => rfl
  | cons line rest ih =>
    have hg := h line (List.mem_cons_self _ _)
    rw [convertDependencyLines, if_pos hg]
    rw [ih (fun l hl => h l (List.mem_cons_of_mem _ hl))]

/- ===================== Localizer claims ===================== -/

/-- Claim C1 counterexample: on the manifest `  foo:` / `    version: 1.0.0`
with sibling list `[foo]`, the produced content is not the two lines
`  foo:` / `    path: ../foo` claimed by the spec: the original version
line is copied through after the inserted pair. -/
theorem localizer_example_counterexample :
    (convertDependenciesToLocal (some "  foo:\n    version: 1.0.0") ["foo"]).1 ≠
      some "  foo:\n    path: ../foo" := by
  decide

/-- Claim C1 amended: on the manifest `  foo:` / `    version: 1.0.0` with
sibling list `[foo]`, the localizer replaces the matched line with the
pair `  foo:` / `    path: ../foo`, copies the following version line
through unchanged after it, and returns true. -/
theorem localizer_example_amended :
    convertDependenciesToLocal (some "  foo:\n    version: 1.0.0") ["foo"] =
      (some "  foo:\n    path: ../foo\n    version: 1.0.0", true) := by
  decide

/-- Claim C5: `convertDependenciesToLocal` writes the manifest iff it
returns true.  When the file is absent or unreadable it returns false
and nothing changes; whenever it returns false the content stays
byte-identical; when every matched dependency line is immediately
followed by an active path line it returns false and leaves the file
unchanged; and when it returns true, the written content is exactly the
rewritten lines joined with a newline.  Totality of the embedding is
the no-raise guarantee. -/
theorem localizer_writes_iff_updated (projectNames : List String) :
    (convertDependenciesToLocal none projectNames = (none, false)) ∧
    (∀ file, (convertDependenciesToLocal file projectNames).2 = false →
       (convertDependenciesToLocal file projectNames).1 = file) ∧
    (∀ contents, allMatchesHaveActivePath projectNames (splitLines contents) = true →
       convertDependenciesToLocal (some contents) projectNames = (some contents, false)) ∧
    (∀ contents, (convertDependenciesToLocal (some contents) projectNames).2 = true →
       (convertDependenciesToLocal (some contents) projectNames).1 =
         some (joinLines (convertDependencyLines projectNames (splitLines contents)).1)) := by
  refine ⟨rfl, ?_, ?_, ?_⟩
  · intro file h
    match file with
    | none => rfl
    | some contents =>
      rw [convertDependenciesToLocal] at h ⊢
      cases hfl : (convertDependencyLines projectNames (splitLines contents)).2 with
      | false => rw [if_neg (by simp [hfl])]
      | true =>
        rw [if_pos (by simp [hfl])] at h
        simp at h
  · intro contents hall
    rw [convertDependenciesToLocal,
      if_neg (by simp [convertDependencyLines_flag_eq_false projectNames _ hall])]
  · intro contents h
    rw [convertDependenciesToLocal] at h ⊢
    cases hfl : (convertDependencyLines projectNames (splitLines contents)).2 with
    | false =>
      rw [if_neg (by simp [hfl])] at h
      simp at h
    | true => rw [if_pos (by simp [hfl])]

/-- Witness for C5 on the spec's no-op example: a dependency already
followed by an active path line is left untouched and reported as not
updated. -/
theorem localizer_writes_iff_updated_witness :
    convertDependenciesToLocal (some "  foo:\n    path: ../foo") ["foo"] =
      (some "  foo:\n    path: ../foo", false) :=
  (localizer_writes_iff_updated ["foo"]).2.2.1 "  foo:\n    path: ../foo" (by decide)

/-- Claim C9: the localizer copies blank lines and full-line comments
(trimmed line starting with `#`) through unchanged: such a line is
emitted verbatim and contributes nothing to the updated flag; a file of
only blank/comment lines is left byte-identical with no update; and in
particular `  # foo:` is never rewritten even when `foo` is a known
sibling name and a real `foo` dependency elsewhere in the file is. -/
theorem localizer_preserves_comments (projectNames : List String) :
    (∀ line rest, (jsIsEmpty line || jsStartsWith (jsTrim line) "#") = true →
       convertDependencyLines projectNames (line :: rest) =
         (line :: (convertDependencyLines projectNames rest).1,
          (convertDependencyLines projectNames rest).2)) ∧
    (∀ contents, (∀ line ∈ splitLines contents,
        (jsIsEmpty line || jsStartsWith (jsTrim line) "#") = true) →
       convertDependenciesToLocal (some contents) projectNames = (some contents, false)) ∧
    convertDependenciesToLocal (some "  # foo:\n  foo:\n    version: 1.0.0") ["foo"] =
      (some "  # foo:\n  foo:\n    path: ../foo\n    version: 1.0.0", true) := by
  refine ⟨?_, ?_, by decide⟩
  · intro line rest hg
    rw [convertDependencyLines, if_pos hg]
  · intro contents hall
    have h := convertDependencyLines_all_comments projectNames (splitLines contents) hall
    rw [convertDependenciesToLocal, if_neg (by simp [h])]

/-- Witness for C9: the comment line `  # foo:` passes through the
line pass unchanged with `foo` a known sibling name. -/
theorem localizer_preserves_comments_witness :
    convertDependencyLines ["foo"] ["  # foo:"] =
      ("  # foo:" :: (convertDependencyLines ["foo"] []).1,
       (convertDependencyLines ["foo"] []).2) :=
  (localizer_preserves_comments ["foo"]).1 "  # foo:" [] (by decide)

/- ===================== Shell adapter claim ===================== -/

/-- Claim C6: `runShellCommand` never raises — it is a total function
into the uniform record — and `ok` is false exactly when the process
rejects (non-zero exit or failure to launch); on rejection the outputs
default to the empty string with the error message (and then
`"Unknown error"`) substituted into stderr; on success the outputs
default to the empty string. -/
theorem run_shell_command_uniform_result
    (execBehavior : String → Option String → ExecOutcome)
    (useFvm : Bool) (command : String) (cwd : Option String) :
    ((runShellCommand execBehavior useFvm command cwd).ok = false ↔
       (execBehavior (applyFvmProxy useFvm command) cwd).isFailure = true) ∧
    (∀ out err msg, execBehavior (applyFvmProxy useFvm command) cwd =
         ExecOutcome.failure out err msg →
       runShellCommand execBehavior useFvm command cwd =
         ⟨false, out.getD "", err.getD (msg.getD "Unknown error")⟩) ∧
    (∀ out err, execBehavior (applyFvmProxy useFvm command) cwd =
         ExecOutcome.success out err →
       runShellCommand execBehavior useFvm command cwd =
         ⟨true, out.getD "", err.getD ""⟩) := by
  cases hE : execBehavior (applyFvmProxy useFvm command) cwd with
  | success out err =>
    refine ⟨?_, ?_, ?_⟩
    · simp [runShellCommand, hE, ExecOutcome.isFailure]
    · intro out' err' msg' h'
      cases h'
    · intro out' err' h'
      cases h'
      simp [runShellCommand, hE]
  | failure out err msg =>
    refine ⟨?_, ?_, ?_⟩
    · simp [runShellCommand, hE, ExecOutcome.isFailure]
    · intro out' err' msg' h'
      cases h'
      simp [runShellCommand, hE]
    · intro out' err' h'
      cases h'

/-- Witness for C6: a command that fails to launch yields `ok = false`,
empty stdout, and the error message substituted into stderr. -/
theorem run_shell_command_uniform_result_witness :
    runShellCommand (fun _ _ => ExecOutcome.failure none none (some "spawn ENOENT"))
        false "nosuchtool --version" (some "/repo") =
      ⟨false, "", "spawn ENOENT"⟩ :=
  (run_shell_command_uniform_result
      (fun _ _ => ExecOutcome.failure none none (some "spawn ENOENT"))
      false "nosuchtool --version" (some "/repo")).2.1 none none (some "spawn ENOENT") rfl

/- ===================== Batch runner lemmas ===================== -/

theorem runLoop_cancel_free (operationName : String) (outcome : Nat → ActionOutcome)
    (cancelled : Nat → Bool) (items : List ProjectInfo) : ∀ i,
    (∀ j, i ≤ j → j < i + items.length → cancelled j = false) →
    runLoop operationName outcome cancelled items i =
      (traceFrom operationName outcome items i, List.range' i items.length) := by
  induction items with
  | nil =>
    intro i _
    rfl
  | cons item rest ih =>
    intro i h
    rw [runLoop, if_neg (by simp [h i (Nat.le_refl i) (by simp)])]
    have hrec := ih (i + 1) (fun j hj1 hj2 => h j (by omega) (by simp; omega))
    cases ho : outcome i with
    | ok =>
      simp only [ho]
      rw [hrec, traceFrom]
      simp only [ho, List.length_cons]
      rw [List.range'_succ]
    | err msg =>
      simp only [ho]
      rw [hrec, traceFrom]
      simp only [ho, List.length_cons]
      rw [List.range'_succ]

theorem runLoop_cancel_at (operationName : String) (outcome : Nat → ActionOutcome)
    (cancelled : Nat → Bool) (items : List ProjectInfo) : ∀ i k,
    i ≤ k → k < i + items.length →
    (∀ j, i ≤ j → j < k → cancelled j = false) →
    cancelled k = true →
    runLoop operationName outcome cancelled items i =
      (traceFrom operationName outcome (items.take (k - i)) i, List.range' i (k - i)) := by
  induction items with
  | nil =>
    intro i k h1 h2 _ _
    exact absurd h2 (by simp; omega)
  | cons item rest ih =>
    intro i k h1 h2 h3 h4
    by_cases hik : i = k
    · subst hik
      rw [runLoop, if_pos h4]
      simp [Nat.sub_self, traceFrom]
    · have hlt : i < k := by omega
      rw [runLoop, if_neg (by simp [h3 i (Nat.le_refl i) hlt])]
      have hrec := ih (i + 1) k (by omega) (by simp at h2 ⊢; omega)
        (fun j hj1 hj2 => h3 j (by omega) hj2) h4
      have hki : k - i = (k - (i + 1)) + 1 := by omega
      cases ho : outcome i with
      | ok =>
        simp only [ho]
        rw [hrec, hki, List.take_succ_cons, traceFrom]
        simp only [ho]
        rw [List.range'_succ]
      | err msg =>
        simp only [ho]
        rw [hrec, hki, List.take_succ_cons, traceFrom]
        simp only [ho]
        rw [List.range'_succ]

theorem traceFrom_filter_ok (operationName : String) (outcome : Nat → ActionOutcome)
    (items : List ProjectInfo) : ∀ i,
    (∀ j, i ≤ j → outcome j = ActionOutcome.ok) →
    (traceFrom operationName outcome items i).filter TraceLine.isFailureLine = [] := by
  induction items with
  | nil =>
    intro i _
    rfl
  | cons item rest ih =>
    intro i h
    rw [traceFrom]
    simp only [h i (Nat.le_refl i)]
    rw [List.filter_cons_of_neg (by simp [TraceLine.isFailureLine])]
    exact ih (i + 1) (fun j hj => h j (by omega))

theorem traceFrom_filter_one (operationName : String) (outcome : Nat → ActionOutcome)
    (msg : String) (items : List ProjectInfo) : ∀ i k,
    i ≤ k → k < i + items.length →
    outcome k = ActionOutcome.err msg →
    (∀ j, j ≠ k → outcome j = ActionOutcome.ok) →
    (traceFrom operationName outcome items i).filter TraceLine.isFailureLine =
      [TraceLine.failure msg] := by
  induction items with
  | nil =>
    intro i k h1 h2 _ _
    exact absurd h2 (by simp; omega)
  | cons item rest ih =>
    intro i k h1 h2 herr hok
    rw [traceFrom]
    by_cases hik : i = k
    · subst hik
      simp only [herr]
      rw [List.filter_cons_of_neg (by simp [TraceLine.isFailureLine]), List.filter_cons_of_pos (by rfl)]
      rw [traceFrom_filter_ok operationName outcome rest (i + 1) (fun j hj => hok j (by omega))]
    · have hoki : outcome i = ActionOutcome.ok := hok i hik
      simp only [hoki]
      rw [List.filter_cons_of_neg (by simp [TraceLine.isFailureLine])]
      exact ih (i + 1) k (by omega) (by simp at h2 ⊢; omega) herr hok

/- ===================== Batch runner claims ===================== -/

/-- Claim C7: in the batch runner, a thrown action is caught at the item
boundary: with no cancellation and exactly one item `k` throwing, the
run still covers every item in list order (invoked indices are
`0 .. n-1`), the trace is the uncancelled trace, and it carries exactly
one failure line, holding that item's message. -/
theorem batch_runner_isolates_failures (operationName : String)
    (outcome : Nat → ActionOutcome) (cancelled : Nat → Bool)
    (projects : List ProjectInfo) (k : Nat) (msg : String)
    (hnc : ∀ j, cancelled j = false) (hk : k < projects.length)
    (herr : outcome k = ActionOutcome.err msg)
    (hok : ∀ j, j ≠ k → outcome j = ActionOutcome.ok) :
    runProjectOperation operationName outcome cancelled projects =
      RunReport.ran (traceFrom operationName outcome projects 0)
        (List.range projects.length) ∧
    (traceFrom operationName outcome projects 0).filter TraceLine.isFailureLine =
      [TraceLine.failure msg] := by
  constructor
  · rw [runProjectOperation, if_neg (by omega)]
    rw [runLoop_cancel_free operationName outcome cancelled projects 0
      (fun j _ _ => hnc j)]
    rw [List.range_eq_range']
  · exact traceFrom_filter_one operationName outcome msg projects 0 k (by omega)
      (by omega) herr hok

/-- Witness for C7: three modules, the second throws; all three run and
the trace has exactly the one failure line. -/
theorem batch_runner_isolates_failures_witness :
    (runProjectOperation "Pub Get" (fun j => if j = 1 then ActionOutcome.err "boom"
        else ActionOutcome.ok) (fun _ => false)
        [⟨"a", "/w/a"⟩, ⟨"b", "/w/b"⟩, ⟨"c", "/w/c"⟩] =
      RunReport.ran (traceFrom "Pub Get" (fun j => if j = 1 then ActionOutcome.err "boom"
        else ActionOutcome.ok) [⟨"a", "/w/a"⟩, ⟨"b", "/w/b"⟩, ⟨"c", "/w/c"⟩] 0)
        (List.range 3)) ∧
    (traceFrom "Pub Get" (fun j => if j = 1 then ActionOutcome.err "boom"
        else ActionOutcome.ok) [⟨"a", "/w/a"⟩, ⟨"b", "/w/b"⟩, ⟨"c", "/w/c"⟩] 0).filter
      TraceLine.isFailureLine = [TraceLine.failure "boom"] :=
  batch_runner_isolates_failures "Pub Get"
    (fun j => if j = 1 then ActionOutcome.err "boom" else ActionOutcome.ok)
    (fun _ => false) [⟨"a", "/w/a"⟩, ⟨"b", "/w/b"⟩, ⟨"c", "/w/c"⟩] 1 "boom"
    (fun _ => rfl) (by decide) rfl (fun j hj => if_neg hj)

/-- Claim C8: the cancellation flag is read immediately before each
item: if it reads false before items `0 .. k-1` and true at the read
before item `k`, exactly the first `k` items are processed (invoked
indices `0 .. k-1`), later items are never attempted, and the trace of
the completed items stands as produced. -/
theorem batch_runner_cancellation_boundary (operationName : String)
    (outcome : Nat → ActionOutcome) (cancelled : Nat → Bool)
    (projects : List ProjectInfo) (k : Nat)
    (hbefore : ∀ j, j < k → cancelled j = false)
    (hat : cancelled k = true)
    (hk : k < projects.length) :
    runProjectOperation operationName outcome cancelled projects =
      RunReport.ran (traceFrom operationName outcome (projects.take k) 0)
        (List.range k) := by
  rw [runProjectOperation, if_neg (by omega)]
  have h := runLoop_cancel_at operationName outcome cancelled projects 0 k
    (by omega) (by omega) (fun j _ hj2 => hbefore j hj2) hat
  rw [h, List.range_eq_range']
  simp

/-- Witness for C8: five modules, cancellation requested after item 2
completes; exactly items 0 and 1 run. -/
theorem batch_runner_cancellation_boundary_witness :
    runProjectOperation "Clean" (fun _ => ActionOutcome.ok) (fun j => decide (2 ≤ j))
        [⟨"a", "/a"⟩, ⟨"b", "/b"⟩, ⟨"c", "/c"⟩, ⟨"d", "/d"⟩, ⟨"e", "/e"⟩] =
      RunReport.ran (traceFrom "Clean" (fun _ => ActionOutcome.ok)
        ([⟨"a", "/a"⟩, ⟨"b", "/b"⟩, ⟨"c", "/c"⟩, ⟨"d", "/d"⟩, ⟨"e", "/e"⟩].take 2) 0)
        (List.range 2) :=
  batch_runner_cancellation_boundary "Clean" (fun _ => ActionOutcome.ok)
    (fun j => decide (2 ≤ j))
    [⟨"a", "/a"⟩, ⟨"b", "/b"⟩, ⟨"c", "/c"⟩, ⟨"d", "/d"⟩, ⟨"e", "/e"⟩] 2
    (fun j hj => by simp; omega) (by decide) (by decide)

end MMF
